import Mathlib

set_option autoImplicit false

/-
Verification of the agent-bound policy core: permission vocabulary,
policy resolution, the runtime permission checker, the audit log and
the sandbox launcher, shallowly embedded from the TypeScript source.

Effectful pieces are made explicit: the audit log is threaded as a
value, the ambient environment (process.env / process.cwd) is an
explicit parameter, and the sandbox launch returns a result value
instead of throwing / spawning.
-/

namespace AgentBound

-- ---------------------------------------------------------------------------
-- Permission vocabulary (src/permissions.ts)
-- ---------------------------------------------------------------------------

/-- The closed vocabulary of the seven generic permissions
(FILESYSTEM_READ .. SYSTEM_EXEC in src/permissions.ts). -/
inductive Permission where
  | filesystemRead
  | filesystemWrite
  | filesystemDelete
  | networkClient
  | networkServer
  | systemEnvRead
  | systemExec
deriving DecidableEq

-- ---------------------------------------------------------------------------
-- Path model (node:path posix resolve / relative, as used by checker.ts)
-- ---------------------------------------------------------------------------

/-- One path segment: the characters between two separator characters. -/
abbrev Seg := List Char

/-- Split a character list at every separator character, keeping empty
pieces, as splitting a path string on the separator does. -/
def splitSlash : List Char → List Seg
  | [] => [[]]
  | c :: cs =>
    if c = '/' then [] :: splitSlash cs
    else
      match splitSlash cs with
      | [] => [[c]]
      | s :: rest => (c :: s) :: rest

/-- One step of absolute-path normalization: drop empty and single-dot
segments, let a double-dot segment pop the previous segment (vanishing at
the root), keep every other segment. -/
def normStep (acc : List Seg) (seg : Seg) : List Seg :=
  if seg = [] ∨ seg = ['.'] then acc
  else if seg = ['.', '.'] then acc.dropLast
  else acc ++ [seg]

/-- Normalization of the segments of an absolute path, as node:path
posix normalization performs it. -/
def normSegs (segs : List Seg) : List Seg := segs.foldl normStep []

/-- node:path resolve with a single argument, against the current working
directory given as the segment list of an absolute directory: an absolute
argument is normalized on its own, a relative one is joined to cwd first.
The result is the segment list of the canonical absolute path. -/
def resolveP (cwd : List Seg) (p : List Char) : List Seg :=
  if p.head? = some '/' then normSegs (splitSlash p)
  else normSegs (cwd ++ splitSlash p)

/-- Drop the longest common segment-list start of two canonical paths,
returning the two remainders. -/
def dropCommon : List Seg → List Seg → List Seg × List Seg
  | a :: as, b :: bs => if a = b then dropCommon as bs else (a :: as, b :: bs)
  | as, bs => (as, bs)

/-- Segments of node:path relative(f, t) for canonical absolute paths: one
double-dot segment for every remaining segment of f, then the remaining
segments of t. -/
def relSegs (f t : List Seg) : List Seg :=
  ((dropCommon f t).1.map (fun _ => ['.', '.'])) ++ (dropCommon f t).2

/-- Join segments with separator characters (no leading separator), giving
the character list of the relative path that node:path relative returns. -/
def joinSlash : List Seg → List Char
  | [] => []
  | [s] => s
  | s :: t => s ++ '/' :: joinSlash t

-- ---------------------------------------------------------------------------
-- Audit log (src/box/audit.ts)
-- ---------------------------------------------------------------------------

/-- An audit decision: the source's string union of allow and deny. -/
inductive AuditDecision where
  | allow
  | deny
deriving DecidableEq

/-- One audit record. The wall-clock timestamp field of the source is
environmental and not modelled; every other field is kept. -/
structure AuditEntry where
  permission : String
  resource : String
  decision : AuditDecision
  detail : Option String
deriving DecidableEq

/-- The in-memory audit log: the ordered sequence of recorded entries. -/
abbrev AuditLog := List AuditEntry

/-- AuditLog.record: push one new entry at the end. -/
def AuditLog.record (log : AuditLog) (permission resource : String)
    (decision : AuditDecision) (detail : Option String) : AuditLog :=
  log ++ [⟨permission, resource, decision, detail⟩]

/-- AuditLog.all: a copy of all recorded entries (a copy of a pure value is
the value itself). -/
def AuditLog.all (log : AuditLog) : List AuditEntry := log

/-- AuditLog.denied: only the denied entries. -/
def AuditLog.denied (log : AuditLog) : List AuditEntry :=
  log.filter (fun e => e.decision = AuditDecision.deny)

/-- AuditLog.clear: remove every entry. -/
def AuditLog.clear (_log : AuditLog) : AuditLog := []

-- ---------------------------------------------------------------------------
-- Effective permissions (src/manifest/schema.ts)
-- ---------------------------------------------------------------------------

/-- The filesystem category of EffectivePermissions. -/
structure FilesystemPerms where
  read : Option (List String)
  write : Option (List String)
  delete : Option (List String)
deriving DecidableEq

/-- The network category of EffectivePermissions. -/
structure NetworkPerms where
  allowedHosts : Option (List String)
  listenPorts : Option (List Nat)
deriving DecidableEq

/-- The system category of EffectivePermissions. -/
structure SystemPerms where
  envVars : Option (List String)
  allowedCommands : Option (List String)
deriving DecidableEq

/-- EffectivePermissions: each category sub-struct is optional, and inside
a present sub-struct each field is again optional. -/
structure EffectivePermissions where
  filesystem : Option FilesystemPerms
  network : Option NetworkPerms
  system : Option SystemPerms
deriving DecidableEq

-- ---------------------------------------------------------------------------
-- Permission checker (src/box/checker.ts)
-- ---------------------------------------------------------------------------

/-- The three filesystem actions the checker distinguishes. -/
inductive FsAction where
  | read
  | write
  | delete
deriving DecidableEq

/-- The action's name as interpolated into the audit detail string. -/
def FsAction.name : FsAction → String
  | .read => "read"
  | .write => "write"
  | .delete => "delete"

/-- this.perms.filesystem?.[action]: the optional chain from the
permissions to one action's path list. -/
def fsPaths (perms : EffectivePermissions) : FsAction → Option (List String)
  | .read => perms.filesystem.bind FilesystemPerms.read
  | .write => perms.filesystem.bind FilesystemPerms.write
  | .delete => perms.filesystem.bind FilesystemPerms.delete

/-- The body of the some-callback in checkFilesystem: resolve the allowed
root, take the relative path from it to the requested absolute path, and
accept when that relative path neither starts with two dots nor starts
with a separator. -/
def fsAllowedBy (cwd : List Seg) (abs : List Seg) (allowed : String) : Bool :=
  let allowedAbs := resolveP cwd allowed.toList
  let rel := joinSlash (relSegs allowedAbs abs)
  !(['.', '.'].isPrefixOf rel) && !(['/'].isPrefixOf rel)

/-- PermissionChecker.checkFilesystem: deny (with detail) when the action's
path list is absent, else resolve the requested path and allow iff some
allowed root accepts it; always record exactly one audit entry. -/
def checkFilesystem (cwd : List Seg) (perms : EffectivePermissions)
    (log : AuditLog) (action : FsAction) (filePath : String)
    (permName : String) : Bool × AuditLog :=
  match fsPaths perms action with
  | none =>
    (false, log.record permName filePath AuditDecision.deny
      (some ("No filesystem." ++ action.name ++ " permission")))
  | some paths =>
    let abs := resolveP cwd filePath.toList
    let ok := paths.any (fsAllowedBy cwd abs)
    (ok, log.record permName filePath
      (if ok then AuditDecision.allow else AuditDecision.deny) none)

/-- PermissionChecker.checkFileRead. -/
def checkFileRead (cwd : List Seg) (perms : EffectivePermissions)
    (log : AuditLog) (filePath : String) : Bool × AuditLog :=
  checkFilesystem cwd perms log FsAction.read filePath "mcp.ac.filesystem.read"

/-- PermissionChecker.checkFileWrite. -/
def checkFileWrite (cwd : List Seg) (perms : EffectivePermissions)
    (log : AuditLog) (filePath : String) : Bool × AuditLog :=
  checkFilesystem cwd perms log FsAction.write filePath "mcp.ac.filesystem.write"

/-- PermissionChecker.checkFileDelete. -/
def checkFileDelete (cwd : List Seg) (perms : EffectivePermissions)
    (log : AuditLog) (filePath : String) : Bool × AuditLog :=
  checkFilesystem cwd perms log FsAction.delete filePath "mcp.ac.filesystem.delete"

/-- PermissionChecker.checkNetworkClient: deny when network.allowedHosts
is absent; else allow iff the list holds the literal wildcard star string
or the exact host (Array.includes is exact membership). -/
def checkNetworkClient (perms : EffectivePermissions) (log : AuditLog)
    (host : String) : Bool × AuditLog :=
  match perms.network.bind NetworkPerms.allowedHosts with
  | none =>
    (false, log.record "mcp.ac.network.client" host AuditDecision.deny
      (some "No network.client permission"))
  | some allowed =>
    let ok := decide (("*" : String) ∈ allowed) || decide (host ∈ allowed)
    (ok, log.record "mcp.ac.network.client" host
      (if ok then AuditDecision.allow else AuditDecision.deny) none)

/-- PermissionChecker.checkNetworkServer: deny when network.listenPorts is
absent; else allow iff the port is in the list. -/
def checkNetworkServer (perms : EffectivePermissions) (log : AuditLog)
    (port : Nat) : Bool × AuditLog :=
  match perms.network.bind NetworkPerms.listenPorts with
  | none =>
    (false, log.record "mcp.ac.network.server" (toString port) AuditDecision.deny
      (some "No network.server permission"))
  | some allowed =>
    let ok := decide (port ∈ allowed)
    (ok, log.record "mcp.ac.network.server" (toString port)
      (if ok then AuditDecision.allow else AuditDecision.deny) none)

/-- PermissionChecker.checkEnvRead: deny when system.envVars is absent;
else allow iff the variable name is in the list. -/
def checkEnvRead (perms : EffectivePermissions) (log : AuditLog)
    (name : String) : Bool × AuditLog :=
  match perms.system.bind SystemPerms.envVars with
  | none =>
    (false, log.record "mcp.ac.system.env.read" name AuditDecision.deny
      (some "No system.env.read permission"))
  | some allowed =>
    let ok := decide (name ∈ allowed)
    (ok, log.record "mcp.ac.system.env.read" name
      (if ok then AuditDecision.allow else AuditDecision.deny) none)

/-- PermissionChecker.checkExec: deny when system.allowedCommands is
absent; else allow iff the list is empty or holds the command. -/
def checkExec (perms : EffectivePermissions) (log : AuditLog)
    (command : String) : Bool × AuditLog :=
  match perms.system.bind SystemPerms.allowedCommands with
  | none =>
    (false, log.record "mcp.ac.system.exec" command AuditDecision.deny
      (some "No system.exec permission"))
  | some allowed =>
    let ok := decide (allowed.length = 0) || decide (command ∈ allowed)
    (ok, log.record "mcp.ac.system.exec" command
      (if ok then AuditDecision.allow else AuditDecision.deny) none)

-- ---------------------------------------------------------------------------
-- Policy resolution (src/box/policy.ts)
-- ---------------------------------------------------------------------------

/-- The AgentManifest as the core consumes it: a description and the list
of declared generic permissions. -/
structure AgentManifest where
  description : String
  permissions : List Permission
deriving DecidableEq

/-- Operator-supplied overrides, one optional field per scope. -/
structure PolicyOverrides where
  readPaths : Option (List String)
  writePaths : Option (List String)
  deletePaths : Option (List String)
  allowedHosts : Option (List String)
  listenPorts : Option (List Nat)
  envVars : Option (List String)
  allowedCommands : Option (List String)
deriving DecidableEq

/-- resolvePolicy: refine the manifest's generic permissions plus operator
overrides into EffectivePermissions. Membership in the JS Set built from
manifest.permissions is list membership; process.cwd() is the explicit
cwd argument. Option.orElse chains model the double-question-mark
defaulting, including delete falling back to the just-resolved write
list and then to the working directory. -/
def resolvePolicy (cwd : String) (manifest : AgentManifest)
    (overrides : PolicyOverrides) : EffectivePermissions :=
  let perms := manifest.permissions
  let filesystem : Option FilesystemPerms :=
    if Permission.filesystemRead ∈ perms ∨ Permission.filesystemWrite ∈ perms ∨
        Permission.filesystemDelete ∈ perms then
      let readPaths : Option (List String) :=
        if Permission.filesystemRead ∈ perms then
          some (overrides.readPaths.getD [cwd])
        else none
      let writePaths : Option (List String) :=
        if Permission.filesystemWrite ∈ perms then
          some (overrides.writePaths.getD [cwd])
        else none
      let deletePaths : Option (List String) :=
        if Permission.filesystemDelete ∈ perms then
          some (((overrides.deletePaths.orElse (fun _ => writePaths)).getD [cwd]))
        else none
      some ⟨readPaths, writePaths, deletePaths⟩
    else none
  let network : Option NetworkPerms :=
    if Permission.networkClient ∈ perms ∨ Permission.networkServer ∈ perms then
      some ⟨if Permission.networkClient ∈ perms then
              some (overrides.allowedHosts.getD ["*"])
            else none,
            if Permission.networkServer ∈ perms then
              some (overrides.listenPorts.getD [])
            else none⟩
    else none
  let system : Option SystemPerms :=
    if Permission.systemEnvRead ∈ perms ∨ Permission.systemExec ∈ perms then
      some ⟨if Permission.systemEnvRead ∈ perms then
              some (overrides.envVars.getD [])
            else none,
            if Permission.systemExec ∈ perms then
              some (overrides.allowedCommands.getD [])
            else none⟩
    else none
  ⟨filesystem, network, system⟩

-- ---------------------------------------------------------------------------
-- Sandbox launcher (src/box/sandbox.ts)
-- ---------------------------------------------------------------------------

/-- The fixed always-allowed environment variable names. -/
def ALWAYS_ALLOWED : List String := ["PATH", "HOME", "USER", "LANG", "TERM", "NODE_ENV"]

/-- Insertion into an insertion-ordered set: keep the first occurrence. -/
def insertUnique (acc : List String) (x : String) : List String :=
  if x ∈ acc then acc else acc ++ [x]

/-- The JS Set constructor over a list: insertion-ordered deduplication. -/
def dedupKeys (l : List String) : List String := l.foldl insertUnique []

/-- Record assignment on a string-keyed record: overwrite the binding when
the key is present, append a new binding otherwise. -/
def setEnv (env : List (String × String)) (k v : String) : List (String × String) :=
  if env.any (fun kv => kv.1 = k) then
    env.map (fun kv => if kv.1 = k then (k, v) else kv)
  else env ++ [(k, v)]

/-- Record lookup on a string-keyed record. -/
def lookupEnv (env : List (String × String)) (k : String) : Option String :=
  match env with
  | [] => none
  | (k₁, v) :: rest => if k₁ = k then some v else lookupEnv rest k

/-- buildEnvironment: copy into the child environment the values of the
always-allowed names unioned with permissions.system.envVars that are
defined in the launching process's environment (passed explicitly as
procEnv), then force the search path to the fixed minimal directory list
when system.allowedCommands is absent. -/
def buildEnvironment (procEnv : String → Option String)
    (permissions : EffectivePermissions) : List (String × String) :=
  let allowed := dedupKeys
    (ALWAYS_ALLOWED ++ (permissions.system.bind SystemPerms.envVars).getD [])
  let env := allowed.foldl (fun acc key =>
    match procEnv key with
    | some value => acc ++ [(key, value)]
    | none => acc) []
  if (permissions.system.bind SystemPerms.allowedCommands) = none then
    setEnv env "PATH" "/usr/local/bin:/usr/bin:/bin"
  else env

/-- The launch options (the stdio wiring choice has no modelled effect and
is omitted). -/
structure SandboxOptions where
  command : List String
  cwd : Option String
  permissions : EffectivePermissions
deriving DecidableEq

/-- The outcome of launchSandbox: either the thrown invalid-argument error,
or the spawn request handed to the OS (executable, argv, filtered
environment, resolved working directory). -/
inductive LaunchResult where
  | invalidArgument (message : String)
  | spawned (cmd : String) (args : List String)
      (env : List (String × String)) (cwd : List Seg)
deriving DecidableEq

/-- launchSandbox: reject an empty command before anything is spawned,
else spawn command-head with the remaining arguments, the filtered
environment and the resolved working directory (defaulting to the
launching process's). -/
def launchSandbox (procEnv : String → Option String) (cwd : List Seg)
    (options : SandboxOptions) : LaunchResult :=
  match options.command with
  | [] => LaunchResult.invalidArgument "command must contain at least one element"
  | cmd :: args =>
    LaunchResult.spawned cmd args (buildEnvironment procEnv options.permissions)
      (match options.cwd with
       | some c => resolveP cwd c.toList
       | none => cwd)

-- ---------------------------------------------------------------------------
-- Helper notions and lemmas
-- ---------------------------------------------------------------------------

/-- A check result appends exactly one entry to the given log, and that
entry's decision matches the returned boolean. -/
def appendsOneEntry (res : Bool × AuditLog) (log : AuditLog) : Prop :=
  ∃ e, res.2 = log ++ [e] ∧
    e.decision = (if res.1 then AuditDecision.allow else AuditDecision.deny)

lemma checkFilesystem_appendsOne (cwd : List Seg) (perms : EffectivePermissions)
    (log : AuditLog) (action : FsAction) (filePath permName : String) :
    appendsOneEntry (checkFilesystem cwd perms log action filePath permName) log := by
  unfold checkFilesystem
  cases h : fsPaths perms action with
  | none => exact ⟨_, rfl, rfl⟩
  | some paths => exact ⟨_, rfl, rfl⟩

lemma checkNetworkClient_appendsOne (perms : EffectivePermissions)
    (log : AuditLog) (host : String) :
    appendsOneEntry (checkNetworkClient perms log host) log := by
  unfold checkNetworkClient
  cases h : perms.network.bind NetworkPerms.allowedHosts with
  | none => exact ⟨_, rfl, rfl⟩
  | some allowed => exact ⟨_, rfl, rfl⟩

lemma checkNetworkServer_appendsOne (perms : EffectivePermissions)
    (log : AuditLog) (port : Nat) :
    appendsOneEntry (checkNetworkServer perms log port) log := by
  unfold checkNetworkServer
  cases h : perms.network.bind NetworkPerms.listenPorts with
  | none => exact ⟨_, rfl, rfl⟩
  | some allowed => exact ⟨_, rfl, rfl⟩

lemma checkEnvRead_appendsOne (perms : EffectivePermissions)
    (log : AuditLog) (name : String) :
    appendsOneEntry (checkEnvRead perms log name) log := by
  unfold checkEnvRead
  cases h : perms.system.bind SystemPerms.envVars with
  | none => exact ⟨_, rfl, rfl⟩
  | some allowed => exact ⟨_, rfl, rfl⟩

lemma checkExec_appendsOne (perms : EffectivePermissions)
    (log : AuditLog) (command : String) :
    appendsOneEntry (checkExec perms log command) log := by
  unfold checkExec
  cases h : perms.system.bind SystemPerms.allowedCommands with
  | none => exact ⟨_, rfl, rfl⟩
  | some allowed => exact ⟨_, rfl, rfl⟩

lemma length_filter_decision (log : AuditLog) :
    (log.filter (fun e => e.decision = AuditDecision.deny)).length +
      (log.filter (fun e => e.decision = AuditDecision.allow)).length = log.length := by
  induction log with
  | nil => rfl
  | cons e l ih =>
    cases hd : e.decision <;> simp [List.filter_cons, hd] <;> omega

-- ---------------------------------------------------------------------------
-- Claim theorems
-- ---------------------------------------------------------------------------

/-- C5: every call to any of the seven check methods, for every input and
every EffectivePermissions, terminates in a boolean (the embedded checks
are total functions) and appends exactly one entry to the audit log, whose
decision matches the returned boolean. -/
theorem checks_append_one_matching_entry :
    ∀ (cwd : List Seg) (perms : EffectivePermissions) (log : AuditLog),
      (∀ p, appendsOneEntry (checkFileRead cwd perms log p) log) ∧
      (∀ p, appendsOneEntry (checkFileWrite cwd perms log p) log) ∧
      (∀ p, appendsOneEntry (checkFileDelete cwd perms log p) log) ∧
      (∀ h, appendsOneEntry (checkNetworkClient perms log h) log) ∧
      (∀ port, appendsOneEntry (checkNetworkServer perms log port) log) ∧
      (∀ n, appendsOneEntry (checkEnvRead perms log n) log) ∧
      (∀ c, appendsOneEntry (checkExec perms log c) log) := by
  intro cwd perms log
  exact ⟨fun p => checkFilesystem_appendsOne cwd perms log FsAction.read p _,
    fun p => checkFilesystem_appendsOne cwd perms log FsAction.write p _,
    fun p => checkFilesystem_appendsOne cwd perms log FsAction.delete p _,
    fun h => checkNetworkClient_appendsOne perms log h,
    fun port => checkNetworkServer_appendsOne perms log port,
    fun n => checkEnvRead_appendsOne perms log n,
    fun c => checkExec_appendsOne perms log c⟩

/-- C7: denied is exactly the deny-filtered view of all, an order-preserving
subsequence of it; the deny count plus the allow count equals the total;
clear followed by all yields the empty sequence; and checks performed after
clear still append exactly one matching entry. In this pure embedding all
and denied return values, so the snapshot-copy behavior of the source is
inherent. -/
theorem auditLog_views_and_clear :
    ∀ log : AuditLog,
      AuditLog.denied log =
        (AuditLog.all log).filter (fun e => e.decision = AuditDecision.deny) ∧
      (AuditLog.denied log).Sublist (AuditLog.all log) ∧
      (AuditLog.denied log).length +
          ((AuditLog.all log).filter
            (fun e => e.decision = AuditDecision.allow)).length =
        (AuditLog.all log).length ∧
      AuditLog.all (AuditLog.clear log) = [] ∧
      (∀ cwd perms p,
        appendsOneEntry (checkFileRead cwd perms (AuditLog.clear log) p)
          (AuditLog.clear log)) ∧
      (∀ perms hst,
        appendsOneEntry (checkNetworkClient perms (AuditLog.clear log) hst)
          (AuditLog.clear log)) ∧
      (∀ perms c,
        appendsOneEntry (checkExec perms (AuditLog.clear log) c)
          (AuditLog.clear log)) := by
  intro log
  refine ⟨rfl, List.filter_sublist log, length_filter_decision log, rfl, ?_, ?_, ?_⟩
  · exact fun cwd perms p => checkFilesystem_appendsOne cwd perms _ FsAction.read p _
  · exact fun perms hst => checkNetworkClient_appendsOne perms _ hst
  · exact fun perms c => checkExec_appendsOne perms _ c

/-- C2: checkExec returns true exactly when system.allowedCommands is
present and is either empty (any command permitted) or holds the command;
in particular an absent list denies every command, so present-but-empty
and absent behave differently. -/
theorem checkExec_allowlist_semantics :
    ∀ (perms : EffectivePermissions) (log : AuditLog) (c : String),
      (checkExec perms log c).1 = true ↔
        ∃ cmds, perms.system.bind SystemPerms.allowedCommands = some cmds ∧
          (cmds = [] ∨ c ∈ cmds) := by
  intro perms log c
  cases h : perms.system.bind SystemPerms.allowedCommands with
  | none => simp [checkExec, h]
  | some cmds => simp [checkExec, h, List.length_eq_zero]

/-- C3: checkNetworkClient returns true exactly when network.allowedHosts
is present and holds the literal wildcard star string or the exact host
(membership is case-sensitive string equality); an absent list denies
every host. -/
theorem checkNetworkClient_hostlist_semantics :
    ∀ (perms : EffectivePermissions) (log : AuditLog) (h : String),
      (checkNetworkClient perms log h).1 = true ↔
        ∃ hosts, perms.network.bind NetworkPerms.allowedHosts = some hosts ∧
          (("*" : String) ∈ hosts ∨ h ∈ hosts) := by
  intro perms log h
  cases hh : perms.network.bind NetworkPerms.allowedHosts with
  | none => simp [checkNetworkClient, hh]
  | some hosts => simp [checkNetworkClient, hh]

/-- C8: launching with an empty command yields the invalid-argument
failure, for every cwd and every EffectivePermissions, and is never a
spawned process. -/
theorem launchSandbox_empty_command_invalid :
    ∀ (procEnv : String → Option String) (cwd : List Seg) (c : Option String)
      (perms : EffectivePermissions),
      launchSandbox procEnv cwd ⟨[], c, perms⟩ =
        LaunchResult.invalidArgument "command must contain at least one element" ∧
      ∀ cmd args env rcwd,
        launchSandbox procEnv cwd ⟨[], c, perms⟩ ≠
          LaunchResult.spawned cmd args env rcwd := by
  intro procEnv cwd c perms
  refine ⟨rfl, fun cmd args env rcwd hcontra => ?_⟩
  simp [launchSandbox] at hcontra

/-- C9: a manifest declaring no permissions resolves, with any overrides,
to EffectivePermissions with no category struct present, and under that
result every check method returns false on every input. -/
theorem resolvePolicy_empty_manifest_denies_all :
    ∀ (cwdStr desc : String) (ov : PolicyOverrides),
      resolvePolicy cwdStr ⟨desc, []⟩ ov = ⟨none, none, none⟩ ∧
      (∀ cwd log p,
        (checkFileRead cwd (resolvePolicy cwdStr ⟨desc, []⟩ ov) log p).1 = false) ∧
      (∀ cwd log p,
        (checkFileWrite cwd (resolvePolicy cwdStr ⟨desc, []⟩ ov) log p).1 = false) ∧
      (∀ cwd log p,
        (checkFileDelete cwd (resolvePolicy cwdStr ⟨desc, []⟩ ov) log p).1 = false) ∧
      (∀ log h,
        (checkNetworkClient (resolvePolicy cwdStr ⟨desc, []⟩ ov) log h).1 = false) ∧
      (∀ log port,
        (checkNetworkServer (resolvePolicy cwdStr ⟨desc, []⟩ ov) log port).1 = false) ∧
      (∀ log n,
        (checkEnvRead (resolvePolicy cwdStr ⟨desc, []⟩ ov) log n).1 = false) ∧
      (∀ log c,
        (checkExec (resolvePolicy cwdStr ⟨desc, []⟩ ov) log c).1 = false) := by
  intro cwdStr desc ov
  have h : resolvePolicy cwdStr ⟨desc, []⟩ ov = ⟨none, none, none⟩ := by
    simp [resolvePolicy]
  rw [h]
  exact ⟨rfl, fun _ _ _ => rfl, fun _ _ _ => rfl, fun _ _ _ => rfl,
    fun _ _ => rfl, fun _ _ => rfl, fun _ _ => rfl, fun _ _ => rfl⟩

/-- C4: resolvePolicy resolves each category independently: declared
read/write resolve to the override verbatim else to the working-directory
singleton; declared delete with no override inherits the resolved write
list when write is declared, else the working directory; declared
network.client defaults allowedHosts to the wildcard singleton; declared
server, env-read and exec default their lists to empty; and a category
struct is present iff a permission of that category is declared. -/
theorem resolvePolicy_category_resolution :
    ∀ (cwd : String) (m : AgentManifest) (ov : PolicyOverrides),
      resolvePolicy cwd m ov =
        ⟨if Permission.filesystemRead ∈ m.permissions ∨
             Permission.filesystemWrite ∈ m.permissions ∨
             Permission.filesystemDelete ∈ m.permissions then
           some ⟨if Permission.filesystemRead ∈ m.permissions then
                   some (ov.readPaths.getD [cwd])
                 else none,
                 if Permission.filesystemWrite ∈ m.permissions then
                   some (ov.writePaths.getD [cwd])
                 else none,
                 if Permission.filesystemDelete ∈ m.permissions then
                   some (ov.deletePaths.getD
                     (if Permission.filesystemWrite ∈ m.permissions then
                        ov.writePaths.getD [cwd]
                      else [cwd]))
                 else none⟩
         else none,
         if Permission.networkClient ∈ m.permissions ∨
             Permission.networkServer ∈ m.permissions then
           some ⟨if Permission.networkClient ∈ m.permissions then
                   some (ov.allowedHosts.getD ["*"])
                 else none,
                 if Permission.networkServer ∈ m.permissions then
                   some (ov.listenPorts.getD [])
                 else none⟩
         else none,
         if Permission.systemEnvRead ∈ m.permissions ∨
             Permission.systemExec ∈ m.permissions then
           some ⟨if Permission.systemEnvRead ∈ m.permissions then
                   some (ov.envVars.getD [])
                 else none,
                 if Permission.systemExec ∈ m.permissions then
                   some (ov.allowedCommands.getD [])
                 else none⟩
         else none⟩ := by
  intro cwd m ov
  by_cases h2 : Permission.filesystemWrite ∈ m.permissions <;>
  by_cases h3 : Permission.filesystemDelete ∈ m.permissions <;>
  cases hd : ov.deletePaths <;>
  simp [resolvePolicy, h2, h3, hd, Option.orElse]

/-- C10: resolvePolicy depends on the manifest's permissions only through
set membership: two manifests whose permission lists have the same members
(any order, any multiplicity) resolve to identical EffectivePermissions
under every fixed override. -/
theorem resolvePolicy_set_invariant :
    ∀ (cwd : String) (m₁ m₂ : AgentManifest) (ov : PolicyOverrides),
      (∀ p, p ∈ m₁.permissions ↔ p ∈ m₂.permissions) →
      resolvePolicy cwd m₁ ov = resolvePolicy cwd m₂ ov := by
  intro cwd m₁ m₂ ov hmem
  simp only [resolvePolicy, hmem]

/-- The all-absent override record. -/
def noOverrides : PolicyOverrides := ⟨none, none, none, none, none, none, none⟩

/-- Witness for the permutation/duplication invariance of resolvePolicy,
at two concrete manifests with reordered, duplicated permission lists. -/
theorem resolvePolicy_set_invariant_witness :
    (∀ p : Permission,
      p ∈ [Permission.filesystemRead, Permission.networkClient] ↔
        p ∈ [Permission.networkClient, Permission.filesystemRead,
             Permission.filesystemRead]) ∧
    resolvePolicy "/w"
        ⟨"a", [Permission.filesystemRead, Permission.networkClient]⟩ noOverrides =
      resolvePolicy "/w"
        ⟨"b", [Permission.networkClient, Permission.filesystemRead,
               Permission.filesystemRead]⟩ noOverrides :=
  ⟨fun p => by cases p <;> decide,
   resolvePolicy_set_invariant "/w" _ _ noOverrides (fun p => by cases p <;> decide)⟩

lemma foldl_env_eq_filterMap (procEnv : String → Option String) :
    ∀ (l : List String) (acc : List (String × String)),
      l.foldl (fun acc key =>
        match procEnv key with
        | some value => acc ++ [(key, value)]
        | none => acc) acc =
      acc ++ l.filterMap (fun k => (procEnv k).map (fun v => (k, v))) := by
  intro l
  induction l with
  | nil => intro acc; simp
  | cons x l ih =>
    intro acc
    cases hx : procEnv x <;>
      simp [List.filterMap_cons, hx, ih, List.append_assoc]

lemma lookupEnv_filterMap (procEnv : String → Option String) :
    ∀ (l : List String) (k : String),
      lookupEnv (l.filterMap (fun k₀ => (procEnv k₀).map (fun v => (k₀, v)))) k =
        if k ∈ l then procEnv k else none := by
  intro l
  induction l with
  | nil => intro k; simp [lookupEnv]
  | cons x l ih =>
    intro k
    by_cases hk : k = x
    · subst hk
      cases hx : procEnv k <;>
        simp [List.filterMap_cons, hx, lookupEnv, ih]
    · cases hx : procEnv x <;>
        simp [List.filterMap_cons, hx, lookupEnv, ih, hk, Ne.symm hk]

lemma lookupEnv_append (xs ys : List (String × String)) (q : String) :
    lookupEnv (xs ++ ys) q =
      ((lookupEnv xs q).orElse (fun _ => lookupEnv ys q)) := by
  induction xs with
  | nil => simp [lookupEnv, Option.orElse]
  | cons kv xs ih =>
    obtain ⟨k₁, v⟩ := kv
    by_cases h : k₁ = q <;> simp [lookupEnv, h, ih, Option.orElse]

lemma lookupEnv_none_of_not_any (env : List (String × String)) (k : String)
    (h : env.any (fun kv => kv.1 = k) = false) : lookupEnv env k = none := by
  induction env with
  | nil => rfl
  | cons kv env ih =>
    simp only [List.any_cons, Bool.or_eq_false_iff] at h
    have h1 : ¬ kv.1 = k := by simpa using h.1
    simp [lookupEnv, h1, ih h.2]

lemma lookupEnv_map_set_self (env : List (String × String)) (k v : String)
    (h : env.any (fun kv => kv.1 = k) = true) :
    lookupEnv (env.map (fun kv => if kv.1 = k then (k, v) else kv)) k = some v := by
  induction env with
  | nil => simp at h
  | cons kv env ih =>
    by_cases h1 : kv.1 = k
    · rw [List.map_cons, if_pos h1]
      simp [lookupEnv]
    · rw [List.map_cons, if_neg h1]
      simp only [List.any_cons, Bool.or_eq_true_iff] at h
      have h2 : env.any (fun kv => kv.1 = k) = true := by
        rcases h with h | h
        · exact absurd (by simpa using h) h1
        · exact h
      simp [lookupEnv, h1, ih h2]

lemma lookupEnv_map_set_other (env : List (String × String)) (k v q : String)
    (hq : q ≠ k) :
    lookupEnv (env.map (fun kv => if kv.1 = k then (k, v) else kv)) q =
      lookupEnv env q := by
  induction env with
  | nil => rfl
  | cons kv env ih =>
    by_cases h1 : kv.1 = k
    · rw [List.map_cons, if_pos h1]
      have hkvq : ¬ kv.1 = q := by rw [h1]; exact Ne.symm hq
      simp [lookupEnv, Ne.symm hq, hkvq, ih]
    · rw [List.map_cons, if_neg h1]
      by_cases h2 : kv.1 = q <;> simp [lookupEnv, h2, ih]

lemma lookupEnv_setEnv (env : List (String × String)) (k v q : String) :
    lookupEnv (setEnv env k v) q = if q = k then some v else lookupEnv env q := by
  unfold setEnv
  by_cases hq : q = k
  · subst hq
    by_cases ha : env.any (fun kv => kv.1 = q) = true
    · simp [ha, lookupEnv_map_set_self env q v ha]
    · have ha' : env.any (fun kv => kv.1 = q) = false := by
        rwa [Bool.not_eq_true] at ha
      rw [if_neg (by simp [ha'])]
      rw [lookupEnv_append, lookupEnv_none_of_not_any env q ha']
      simp [lookupEnv, Option.orElse]
  · by_cases ha : env.any (fun kv => kv.1 = k) = true
    · simp [ha, hq, lookupEnv_map_set_other env k v q hq]
    · have ha' : env.any (fun kv => kv.1 = k) = false := by
        rwa [Bool.not_eq_true] at ha
      rw [if_neg (by simp [ha'])]
      rw [lookupEnv_append]
      rw [if_neg hq]
      have : lookupEnv [(k, v)] q = none := by
        simp [lookupEnv, Ne.symm hq]
      rw [this]
      cases henv : lookupEnv env q <;> simp [Option.orElse]

lemma mem_foldl_insertUnique :
    ∀ (l : List String) (acc : List String) (x : String),
      x ∈ l.foldl insertUnique acc ↔ x ∈ acc ∨ x ∈ l := by
  intro l
  induction l with
  | nil => intro acc x; simp
  | cons y l ih =>
    intro acc x
    rw [List.foldl_cons, ih]
    by_cases hy : y ∈ acc
    · simp only [insertUnique, if_pos hy, List.mem_cons]
      constructor
      · rintro (h | h) <;> tauto
      · rintro (h | rfl | h) <;> tauto
    · simp only [insertUnique, if_neg hy, List.mem_append, List.mem_cons,
        List.mem_singleton]
      tauto

lemma mem_dedupKeys (l : List String) (x : String) :
    x ∈ dedupKeys l ↔ x ∈ l := by
  unfold dedupKeys
  rw [mem_foldl_insertUnique]
  simp

/-- C6: the child environment binds exactly the names in the union of the
fixed always-allowed set and permissions.system.envVars that are defined
in the launching process's environment, at their current values, and no
other name; and when system.allowedCommands is absent, PATH is forced to
the fixed minimal directory list. -/
theorem buildEnvironment_exact :
    ∀ (procEnv : String → Option String) (perms : EffectivePermissions)
      (name : String),
      lookupEnv (buildEnvironment procEnv perms) name =
        if perms.system.bind SystemPerms.allowedCommands = none ∧ name = "PATH" then
          some "/usr/local/bin:/usr/bin:/bin"
        else if name ∈ ALWAYS_ALLOWED ∨
            name ∈ (perms.system.bind SystemPerms.envVars).getD [] then
          procEnv name
        else none := by
  intro procEnv perms name
  simp only [buildEnvironment, foldl_env_eq_filterMap procEnv, List.nil_append]
  by_cases hcmd : perms.system.bind SystemPerms.allowedCommands = none
  · rw [if_pos hcmd, lookupEnv_setEnv]
    by_cases hp : name = "PATH"
    · rw [if_pos hp, if_pos ⟨hcmd, hp⟩]
    · rw [if_neg hp, lookupEnv_filterMap]
      by_cases hm : name ∈ ALWAYS_ALLOWED ∨
          name ∈ (perms.system.bind SystemPerms.envVars).getD []
      · have hdm : name ∈ dedupKeys (ALWAYS_ALLOWED ++
            (perms.system.bind SystemPerms.envVars).getD []) :=
          (mem_dedupKeys _ _).mpr (List.mem_append.mpr hm)
        rw [if_pos hdm]
        simp [hm, hp]
      · have hdm : name ∉ dedupKeys (ALWAYS_ALLOWED ++
            (perms.system.bind SystemPerms.envVars).getD []) :=
          fun hc => hm (List.mem_append.mp ((mem_dedupKeys _ _).mp hc))
        rw [if_neg hdm]
        simp [hm, hp]
  · rw [if_neg hcmd, lookupEnv_filterMap]
    by_cases hm : name ∈ ALWAYS_ALLOWED ∨
        name ∈ (perms.system.bind SystemPerms.envVars).getD []
    · have hdm : name ∈ dedupKeys (ALWAYS_ALLOWED ++
          (perms.system.bind SystemPerms.envVars).getD []) :=
        (mem_dedupKeys _ _).mpr (List.mem_append.mpr hm)
      rw [if_pos hdm]
      simp [hm, hcmd]
    · have hdm : name ∉ dedupKeys (ALWAYS_ALLOWED ++
          (perms.system.bind SystemPerms.envVars).getD []) :=
        fun hc => hm (List.mem_append.mp ((mem_dedupKeys _ _).mp hc))
      rw [if_neg hdm]
      simp [hm, hcmd]

-- ---------------------------------------------------------------------------
-- Path containment lemmas (for the filesystem check)
-- ---------------------------------------------------------------------------

/-- The claim-side containment predicate on canonical paths: the root is the
path itself or a proper ancestor, and the first segment below the root does
not itself begin with two dot characters. -/
def specContains (R abs : List Seg) : Bool :=
  R.isPrefixOf abs &&
    (match abs.drop R.length with
     | [] => true
     | s :: _ => !(['.', '.'].isPrefixOf s))

lemma splitSlash_no_slash : ∀ (cs : List Char), ∀ s ∈ splitSlash cs, '/' ∉ s := by
  intro cs
  induction cs with
  | nil =>
    intro s hs
    simp only [splitSlash, List.mem_singleton] at hs
    subst hs
    simp
  | cons c cs ih =>
    intro s hs
    by_cases hc : c = '/'
    · rw [splitSlash, if_pos hc] at hs
      rcases List.mem_cons.mp hs with rfl | hs
      · simp
      · exact ih s hs
    · rw [splitSlash, if_neg hc] at hs
      cases hsp : splitSlash cs with
      | nil =>
        rw [hsp] at hs
        rcases List.mem_singleton.mp hs with rfl
        intro hmem
        rcases List.mem_singleton.mp hmem with rfl
        exact hc rfl
      | cons s₀ rest =>
        rw [hsp] at hs
        rcases List.mem_cons.mp hs with rfl | hs
        · intro hmem
          rcases List.mem_cons.mp hmem with heq | hmem
          · exact hc heq.symm
          · exact ih s₀ (hsp ▸ List.mem_cons_self s₀ rest) hmem
        · exact ih s (hsp ▸ List.mem_cons_of_mem s₀ hs)

lemma mem_foldl_normStep :
    ∀ (l : List Seg) (acc : List Seg),
      (∀ s ∈ acc, s ≠ [] ∧ '/' ∉ s) → (∀ s ∈ l, '/' ∉ s) →
      ∀ s ∈ l.foldl normStep acc, s ≠ [] ∧ '/' ∉ s := by
  intro l
  induction l with
  | nil => intro acc hacc _ s hs; exact hacc s hs
  | cons x l ih =>
    intro acc hacc hl s hs
    rw [List.foldl_cons] at hs
    refine ih (normStep acc x) ?_ (fun t ht => hl t (List.mem_cons_of_mem x ht)) s hs
    intro t ht
    unfold normStep at ht
    by_cases h1 : x = [] ∨ x = ['.']
    · rw [if_pos h1] at ht
      exact hacc t ht
    · rw [if_neg h1] at ht
      by_cases h2 : x = ['.', '.']
      · rw [if_pos h2] at ht
        exact hacc t ((List.dropLast_sublist acc).mem ht)
      · rw [if_neg h2] at ht
        rcases List.mem_append.mp ht with ht | ht
        · exact hacc t ht
        · rcases List.mem_singleton.mp ht with rfl
          exact ⟨fun hx => h1 (Or.inl hx), hl t (List.mem_cons_self t l)⟩

lemma normSegs_good (l : List Seg) (hl : ∀ s ∈ l, '/' ∉ s) :
    ∀ s ∈ normSegs l, s ≠ [] ∧ '/' ∉ s :=
  mem_foldl_normStep l [] (by simp) hl

lemma resolveP_good (cwd : List Seg) (hcwd : ∀ s ∈ cwd, '/' ∉ s) (p : List Char) :
    ∀ s ∈ resolveP cwd p, s ≠ [] ∧ '/' ∉ s := by
  intro s hs
  unfold resolveP at hs
  by_cases hp : p.head? = some '/'
  · rw [if_pos hp] at hs
    exact normSegs_good _ (splitSlash_no_slash p) s hs
  · rw [if_neg hp] at hs
    refine normSegs_good _ ?_ s hs
    intro t ht
    rcases List.mem_append.mp ht with ht | ht
    · exact hcwd t ht
    · exact splitSlash_no_slash p t ht

lemma dropCommon_append : ∀ (R t : List Seg), dropCommon R (R ++ t) = ([], t) := by
  intro R
  induction R with
  | nil => intro t; cases t <;> simp [dropCommon]
  | cons a R ih => intro t; simp [dropCommon, ih]

lemma dropCommon_fst_ne_nil : ∀ (f t : List Seg), ¬ f <+: t →
    ∃ x xs, (dropCommon f t).1 = x :: xs := by
  intro f
  induction f with
  | nil => intro t h; exact absurd List.nil_prefix h
  | cons a as ih =>
    intro t h
    cases t with
    | nil => exact ⟨a, as, by simp [dropCommon]⟩
    | cons b bs =>
      by_cases hab : a = b
      · subst hab
        have hnp : ¬ as <+: bs := fun hp => h (List.cons_prefix_cons.mpr ⟨rfl, hp⟩)
        rw [show dropCommon (a :: as) (a :: bs) = dropCommon as bs from by
          simp [dropCommon]]
        exact ih bs hnp
      · exact ⟨a, as, by simp [dropCommon, hab]⟩

lemma dotdot_isPrefixOf_joinSlash :
    ∀ (s : Seg) (rest : List Seg),
      ['.', '.'].isPrefixOf (joinSlash (s :: rest)) = ['.', '.'].isPrefixOf s := by
  intro s rest
  cases rest with
  | nil => rfl
  | cons r rest =>
    have hsl : (('.' : Char) == '/') = false := by decide
    cases s with
    | nil => simp [joinSlash, List.isPrefixOf, hsl]
    | cons c₁ s₁ =>
      cases s₁ with
      | nil => simp [joinSlash, List.isPrefixOf, hsl]
      | cons c₂ s₂ => simp [joinSlash, List.isPrefixOf]

lemma slash_not_isPrefixOf_joinSlash :
    ∀ (s : Seg) (rest : List Seg), s ≠ [] → '/' ∉ s →
      ['/'].isPrefixOf (joinSlash (s :: rest)) = false := by
  intro s rest hne hns
  cases s with
  | nil => exact absurd rfl hne
  | cons c s₁ =>
    have hc : (('/' : Char) == c) = false := by
      cases hbe : (('/' : Char) == c) with
      | false => rfl
      | true => exact absurd (eq_of_beq hbe ▸ List.mem_cons_self c s₁) hns
    cases rest with
    | nil => simp [joinSlash, List.isPrefixOf, hc]
    | cons r rest => simp [joinSlash, List.isPrefixOf, hc]

lemma fsCheckBool_eq_specContains (R abs : List Seg)
    (habs : ∀ s ∈ abs, s ≠ [] ∧ '/' ∉ s) :
    (!(['.', '.'].isPrefixOf (joinSlash (relSegs R abs))) &&
     !(['/'].isPrefixOf (joinSlash (relSegs R abs)))) = specContains R abs := by
  unfold specContains
  by_cases hpre : R <+: abs
  · obtain ⟨t, rfl⟩ := hpre
    rw [show relSegs R (R ++ t) = t from by
      simp [relSegs, dropCommon_append]]
    rw [List.drop_left R t]
    rw [show R.isPrefixOf (R ++ t) = true from
      List.isPrefixOf_iff_prefix.mpr ⟨t, rfl⟩]
    cases t with
    | nil => rfl
    | cons s rest =>
      have hgood := habs s (List.mem_append.mpr (Or.inr (List.mem_cons_self s rest)))
      rw [dotdot_isPrefixOf_joinSlash s rest,
        slash_not_isPrefixOf_joinSlash s rest hgood.1 hgood.2]
      simp
  · obtain ⟨x, xs, hfst⟩ := dropCommon_fst_ne_nil R abs hpre
    have hrel : relSegs R abs = ['.', '.'] :: (xs.map (fun _ => ['.', '.']) ++
        (dropCommon R abs).2) := by
      simp [relSegs, hfst]
    rw [hrel, dotdot_isPrefixOf_joinSlash]
    rw [show R.isPrefixOf abs = false from by
      cases hbe : R.isPrefixOf abs with
      | false => rfl
      | true => exact absurd (List.isPrefixOf_iff_prefix.mp hbe) hpre]
    simp [List.isPrefixOf]

lemma fsAllowedBy_eq_specContains (cwd : List Seg) (hcwd : ∀ s ∈ cwd, '/' ∉ s)
    (p : String) (allowed : String) :
    fsAllowedBy cwd (resolveP cwd p.toList) allowed =
      specContains (resolveP cwd allowed.toList) (resolveP cwd p.toList) :=
  fsCheckBool_eq_specContains (resolveP cwd allowed.toList)
    (resolveP cwd p.toList) (resolveP_good cwd hcwd p.toList)

/-- C1 (amended): every filesystem check (checkFileRead, checkFileWrite and
checkFileDelete all delegate here with their action and permission name)
whose action path list is present returns true iff some allowed root,
after canonicalization, equals the canonical absolute requested path or is
a proper ancestor of it whose first relative segment does not itself begin
with two dot characters; in particular traversal paths and uncontained
paths return false. The cwd hypothesis states that the working-directory
segments hold no separator character. -/
theorem checkFilesystem_containment (cwd : List Seg) (hcwd : ∀ s ∈ cwd, '/' ∉ s)
    (perms : EffectivePermissions) (log : AuditLog) (action : FsAction)
    (roots : List String) (p permName : String)
    (hroots : fsPaths perms action = some roots) :
    (checkFilesystem cwd perms log action p permName).1 = true ↔
      ∃ r ∈ roots,
        specContains (resolveP cwd r.toList) (resolveP cwd p.toList) = true := by
  simp only [checkFilesystem, hroots]
  simp only [List.any_eq_true, fsAllowedBy_eq_specContains cwd hcwd p]

/-- An EffectivePermissions value granting filesystem read on the given
roots and nothing else. -/
def fsReadPerms (roots : List String) : EffectivePermissions :=
  ⟨some ⟨some roots, none, none⟩, none, none⟩

/-- Witness for the amended containment theorem at a concrete root and
path for the read action, with the filesystem root as working directory. -/
theorem checkFilesystem_containment_witness :
    (∀ s ∈ ([] : List Seg), '/' ∉ s) ∧
    (fsPaths (fsReadPerms ["/data"]) FsAction.read = some ["/data"]) ∧
    ((checkFilesystem [] (fsReadPerms ["/data"]) [] FsAction.read "/data/x.txt"
        "mcp.ac.filesystem.read").1 = true ↔
      ∃ r ∈ ["/data"],
        specContains (resolveP [] r.toList)
          (resolveP [] (String.toList "/data/x.txt")) = true) :=
  ⟨fun s hs => absurd hs (List.not_mem_nil s), rfl,
   checkFilesystem_containment [] (fun s hs => absurd hs (List.not_mem_nil s))
     (fsReadPerms ["/data"]) [] FsAction.read ["/data"] "/data/x.txt"
     "mcp.ac.filesystem.read" rfl⟩

/-- Counterexample to C1 as stated: under allowed root /a, the requested
path /a/..b canonicalizes with /a as a proper ancestor (so the claimed
iff demands true), yet checkFileRead returns false, because the relative
path ..b begins with the two characters dot-dot without being a
parent-traversal segment. -/
theorem checkFileRead_ancestor_iff_counterexample :
    (checkFileRead [] (fsReadPerms ["/a"]) [] "/a/..b").1 = false ∧
    (resolveP [] (String.toList "/a")).isPrefixOf
        (resolveP [] (String.toList "/a/..b")) = true ∧
    resolveP [] (String.toList "/a") ≠ resolveP [] (String.toList "/a/..b") := by
  decide

end AgentBound
